import Mathlib

/-
Verification of the GrimoireELK harvesting fragment:
  utils/get_git_repos.py      (pagination, rate limit, repository shaping)
  perceval/backends/backend.py (Backend construction, state persistence)
  grimoire_elk/elk/utils.py   (repository filter builder)
The Python code is shallowly embedded: pure post-processing becomes Lean
functions, the network is a finite trace of responses, and the observable
side effects of Backend.__init__ become fields of a result record.
-/

namespace GrimoireELK

/-- One GitHub repository record as consumed by get_git_repos.py: the script
reads the fields name, updated_at (parsed into a comparable timestamp,
modelled as an integer), size and fork. -/
structure Repo where
  name : String
  updated_at : Int
  size : Int
  fork : Bool
deriving DecidableEq, Repr

/-- Key order of sorted(key=updated_at, reverse=True): a may stand before b
when a.updated_at is at least b.updated_at; ties keep the prior order, which
is what Python's stable sort does. -/
def updGe (a b : Repo) : Prop := b.updated_at ≤ a.updated_at

/-- Key order of sorted(key=size): ascending by size, ties keep prior order. -/
def sizeLe (a b : Repo) : Prop := a.size ≤ b.size

/-- The combined effect of the two successive stable sorts: ascending by size,
and inside one size class descending by updated_at. -/
def lexLe (a b : Repo) : Prop :=
  a.size < b.size ∨ (a.size = b.size ∧ b.updated_at ≤ a.updated_at)

instance : DecidableRel updGe :=
  fun a b => inferInstanceAs (Decidable (b.updated_at ≤ a.updated_at))

instance : DecidableRel sizeLe :=
  fun a b => inferInstanceAs (Decidable (a.size ≤ b.size))

instance : DecidableRel lexLe :=
  fun a b =>
    inferInstanceAs (Decidable (a.size < b.size ∨ (a.size = b.size ∧ b.updated_at ≤ a.updated_at)))

instance : IsTotal Repo updGe := ⟨fun a b => le_total b.updated_at a.updated_at⟩

instance : IsTrans Repo updGe := ⟨fun _ _ _ hab hbc => le_trans hbc hab⟩

instance : IsTotal Repo sizeLe := ⟨fun a b => le_total a.size b.size⟩

instance : IsTrans Repo sizeLe := ⟨fun _ _ _ hab hbc => le_trans hab hbc⟩

instance : IsTotal Repo lexLe := by
  constructor
  intro a b
  unfold lexLe
  omega

instance : IsTrans Repo lexLe := by
  constructor
  intro a b c hab hbc
  unfold lexLe at *
  omega

/-- Post-processing of get_repositories (get_git_repos.py lines 134-146):
drop forks, stable-sort descending by updated_at, when nrepos > 0 keep the
first nrepos entries, then stable-sort ascending by size.  Python's sorted is
stable; it is modelled by List.insertionSort with a non-strict key order. -/
def shape (all_repos : List Repo) (nrepos : Int) : List Repo :=
  let nrepos_recent := all_repos.filter (fun repo => !repo.fork)
  let nrepos_sorted := List.insertionSort updGe nrepos_recent
  let nrepos_limited := if 0 < nrepos then nrepos_sorted.take nrepos.toNat else nrepos_sorted
  List.insertionSort sizeLe nrepos_limited

/-- Spec wording, step (1): drop every record whose fork field is true. -/
def spec_drop_forks (records : List Repo) : List Repo :=
  records.filter (fun r => !r.fork)

/-- Spec wording, step (2): stable sort descending by updated_at. -/
def spec_sort_updated_desc (records : List Repo) : List Repo :=
  List.insertionSort updGe records

/-- Spec wording, step (3): when max_count > 0 keep the first max_count. -/
def spec_truncate (max_count : Int) (records : List Repo) : List Repo :=
  if 0 < max_count then records.take max_count.toNat else records

/-- Spec wording, step (4): stable re-sort ascending by size. -/
def spec_sort_size_asc (records : List Repo) : List Repo :=
  List.insertionSort sizeLe records

/-- One HTTP response observed inside the get_repositories pagination loop:
a JSON page of repos with the optional next link, a
requests.exceptions.ConnectionError, or an HTTP error status raised by
raise_for_status (which the loop does not catch). -/
inductive PageResponse where
  | page (items : List Repo) (next_link : Option String)
  | connectionError
  | httpError (status : Nat)
deriving DecidableEq

/-- What the pagination loop ends with: the accumulated repos and whether a
ConnectionError was logged on the way out. -/
structure PageOutcome where
  all_repos : List Repo
  logged_connection_error : Bool
deriving DecidableEq

/-- The while-True loop of get_repositories (lines 113-132): each iteration
consumes the next response of the trace; a page's items are appended, the
loop breaks when the page has no next link, a ConnectionError is logged and
breaks the loop keeping what was gathered, and an HTTPError propagates to the
caller.  The source loop always receives a response, so an exhausted trace
(the [] case) only closes the model; the theorems use traces that end in a
terminating response. -/
def paginate_loop : List PageResponse → List Repo → Except Nat PageOutcome
  | [], acc => Except.ok ⟨acc, false⟩
  | PageResponse.page items none :: _, acc => Except.ok ⟨acc ++ items, false⟩
  | PageResponse.page items (some _) :: rest, acc => paginate_loop rest (acc ++ items)
  | PageResponse.connectionError :: _, acc => Except.ok ⟨acc, true⟩
  | PageResponse.httpError s :: _, _ => Except.error s

/-- get_repositories (lines 105-146) over a given trace of page responses:
run the pagination loop from an empty accumulator, then shape the gathered
repos; an uncaught HTTPError status propagates. -/
def get_repositories (trace : List PageResponse) (nrepos : Int) : Except Nat (List Repo) :=
  (paginate_loop trace []).map (fun o => shape o.all_repos nrepos)

def GITHUB_API_URL : String := "https://api.github.com"

/-- Outcome of the probe request get_owner_repos_url issues against the org
endpoint: either raise_for_status passes, or it raises an HTTPError with the
given status. -/
inductive ProbeOutcome where
  | success
  | httpError (status : Nat)
deriving DecidableEq

/-- The organization-scoped repos endpoint built in get_owner_repos_url. -/
def url_org (owner : String) : String :=
  GITHUB_API_URL ++ "/orgs/" ++ owner ++ "/repos"

/-- The user-scoped repos endpoint built in get_owner_repos_url. -/
def url_user (owner : String) : String :=
  GITHUB_API_URL ++ "/users/" ++ owner ++ "/repos"

/-- get_owner_repos_url (lines 78-103): the org url is the default; on a probe
HTTPError with status 403 the function sleeps for the rate-limit reset and
keeps the org url, on any other HTTPError it falls back to the user url; on
probe success the org url is kept. -/
def get_owner_repos_url (owner : String) (probe : ProbeOutcome) : String :=
  match probe with
  | ProbeOutcome.success => url_org owner
  | ProbeOutcome.httpError status =>
      if status = 403 then url_org owner else url_user owner

/-- Seconds slept in get_owner_repos_url lines 94-99.  A status of 403 is the
remote's signal that the rate-limit budget is exhausted (remaining = 0); the
code then sleeps (reset_ts - utcnow).seconds + 1, and Python's
timedelta.seconds is the total seconds modulo 86400 (Int.emod matches
Python's %).  Any other status sleeps nothing. -/
def rate_limit_wait (status : Nat) (reset_at now : Int) : Int :=
  if status = 403 then (reset_at - now) % 86400 + 1 else 0

/-- Observable result of Backend.__init__ (backend.py lines 79-100): the
final attribute values plus whether cache.clean() ran and whether
_restore_state() was called. -/
structure BackendResult where
  use_cache : Bool
  incremental : Bool
  cache_cleaned : Bool
  restore_attempted : Bool
deriving DecidableEq

/-- Backend._restore_state (lines 132-135): logs that state restore is not
implemented and unconditionally disables incremental. -/
def restore_state (s : BackendResult) : BackendResult :=
  { s with incremental := false, restore_attempted := true }

/-- Backend.__init__ (lines 79-100): store the flags, force incremental off
when use_cache is set, then either attempt a state restore (incremental
still on) or, in the non-cache branch, clean the cache. -/
def backend_init (use_cache incremental : Bool) : BackendResult :=
  let s : BackendResult :=
    { use_cache := use_cache, incremental := incremental,
      cache_cleaned := false, restore_attempted := false }
  let s := if s.use_cache then { s with incremental := false } else s
  if s.incremental then
    restore_state s
  else
    if !s.use_cache then { s with cache_cleaned := true } else s

/-- One JSON item handed to _items_state_to_es.  The unique-id field lookup
(_get_field_unique_id, NotImplementedError in the base class) and json.dumps
are backend-specific collaborators, modelled as the already-extracted id and
the serialized document. -/
structure EsItem where
  uid : String
  dump : String
deriving DecidableEq

/-- The elastic state sink: the index url and the PUT requests (url, body)
issued so far. -/
structure EsSink where
  index_url : String
  requests : List (String × String)
deriving DecidableEq

/-- The bulk body built in _items_state_to_es lines 123-127: per item an
index directive with the unique id, then the document, newline-delimited. -/
def bulk_json_of (items : List EsItem) : String :=
  items.foldl
    (fun acc item =>
      acc ++ "\x7b\"index\" : \x7b\"_id\" : \"" ++ item.uid ++ "\" \x7d \x7d\n"
          ++ item.dump ++ "\n")
    ""

/-- Backend._items_state_to_es (lines 108-129): with zero items it returns at
once and issues nothing; otherwise it builds the bulk body and issues exactly
one PUT to index_url/state/_bulk. -/
def items_state_to_es (json_items : List EsItem) (es : EsSink) : EsSink :=
  if json_items.length = 0 then es
  else
    { es with
        requests :=
          es.requests ++ [(es.index_url ++ "/state/_bulk", bulk_json_of json_items)] }

/-- The part of a perceval backend read by get_repository_filter. -/
structure PercevalBackend where
  origin : String
  tag : String
deriving DecidableEq

/-- A filter as returned by get_repository_filter: the empty match-all dict,
the name and value pair, or the parsed term query dict. -/
inductive RepositoryFilter where
  | matchAll
  | nameValue (name value : String)
  | term (field value : String)
deriving DecidableEq

/-- get_repository_filter (elk/utils.py lines 37-74): with no backend the
empty filter; otherwise pick origin, or tag for the four tagged sources,
build the name-value or term form, and collapse to the empty filter when the
selected value is the empty string. -/
def get_repository_filter (backend : Option PercevalBackend)
    (backend_name : String) (term : Bool) : RepositoryFilter :=
  match backend with
  | none => RepositoryFilter.matchAll
  | some b =>
      let tagged := backend_name ∈ ["meetup", "nntp", "stackexchange", "jira"]
      let field := if tagged then "tag" else "origin"
      let value := if tagged then b.tag else b.origin
      let filter_ :=
        if !term then RepositoryFilter.nameValue field value
        else RepositoryFilter.term field value
      if value = "" then RepositoryFilter.matchAll else filter_

/-- The value get_repository_filter keys on: the backend's tag for the four
tagged sources, its origin otherwise. -/
def selected_filter_value (b : PercevalBackend) (backend_name : String) : String :=
  if backend_name ∈ ["meetup", "nntp", "stackexchange", "jira"] then b.tag else b.origin

/-- Trace predicate: every response is a full page carrying a next link, so
the loop keeps going through all of them. -/
def all_pages_with_next (trace : List PageResponse) : Prop :=
  ∀ p ∈ trace, ∃ items url, p = PageResponse.page items (some url)

/-- The items of a list of page responses concatenated in response order. -/
def items_of : List PageResponse → List Repo
  | [] => []
  | PageResponse.page items _ :: rest => items ++ items_of rest
  | _ :: rest => items_of rest

/-- Ten non-fork records: names a to j, updated_at 1 to 10, sizes chosen so
that the shaped order is visible.  The three most recently updated are j
(size 20), i (size 10) and h (size 30). -/
def ten_repos : List Repo :=
  [⟨"a", 1, 95, false⟩, ⟨"b", 2, 85, false⟩, ⟨"c", 3, 75, false⟩,
   ⟨"d", 4, 65, false⟩, ⟨"e", 5, 55, false⟩, ⟨"f", 6, 45, false⟩,
   ⟨"g", 7, 35, false⟩, ⟨"h", 8, 30, false⟩, ⟨"i", 9, 10, false⟩,
   ⟨"j", 10, 20, false⟩]

/-- A single concrete repo used in witnesses. -/
def wrepo : Repo := ⟨"w", 1, 2, false⟩

/-- Arithmetic reading of sizeLe. -/
theorem sizeLe_def (a b : Repo) : sizeLe a b ↔ a.size ≤ b.size := Iff.rfl

/-- Arithmetic reading of updGe. -/
theorem updGe_def (a b : Repo) : updGe a b ↔ b.updated_at ≤ a.updated_at := Iff.rfl

/-- Arithmetic reading of lexLe. -/
theorem lexLe_def (a b : Repo) :
    lexLe a b ↔ (a.size < b.size ∨ (a.size = b.size ∧ b.updated_at ≤ a.updated_at)) := Iff.rfl

/-- Unfolding orderedInsert on a cons when the new element goes first. -/
theorem orderedInsert_cons_pos {α} {r : α → α → Prop} [DecidableRel r] {a b : α}
    (l : List α) (h : r a b) : List.orderedInsert r a (b :: l) = a :: b :: l := by
  simp only [List.orderedInsert, if_pos h]

/-- Unfolding orderedInsert on a cons when the head stays first. -/
theorem orderedInsert_cons_neg {α} {r : α → α → Prop} [DecidableRel r] {a b : α}
    (l : List α) (h : ¬ r a b) :
    List.orderedInsert r a (b :: l) = b :: List.orderedInsert r a l := by
  simp only [List.orderedInsert, if_neg h]

/-- When every element of the list was updated no later than x, inserting x
by size alone or by the combined order lands in the same place. -/
theorem orderedInsert_sizeLe_eq_lexLe (x : Repo) :
    ∀ l : List Repo, (∀ z ∈ l, z.updated_at ≤ x.updated_at) →
      List.orderedInsert sizeLe x l = List.orderedInsert lexLe x l
  | [], _ => rfl
  | z :: zs, h => by
      have hz : z.updated_at ≤ x.updated_at := h z (List.mem_cons_self z zs)
      by_cases hsz : sizeLe x z
      · have hlex : lexLe x z := by
          simp only [sizeLe_def] at hsz
          simp only [lexLe_def]
          omega
        rw [orderedInsert_cons_pos zs hsz, orderedInsert_cons_pos zs hlex]
      · have hlex : ¬ lexLe x z := by
          simp only [sizeLe_def] at hsz
          simp only [lexLe_def]
          omega
        rw [orderedInsert_cons_neg zs hsz, orderedInsert_cons_neg zs hlex,
          orderedInsert_sizeLe_eq_lexLe x zs (fun z' hz' => h z' (List.mem_cons_of_mem z hz'))]

/-- Inserting x by the combined order and then y by size commutes with the
opposite order of insertions, provided x was updated strictly before y. -/
theorem orderedInsert_comm_of_updated_lt {x y : Repo} (hxy : x.updated_at < y.updated_at) :
    ∀ n : List Repo,
      List.orderedInsert sizeLe y (List.orderedInsert lexLe x n) =
        List.orderedInsert lexLe x (List.orderedInsert sizeLe y n)
  | [] => by
      simp only [List.orderedInsert]
      by_cases hC : sizeLe y x
      · have hD : ¬ lexLe x y := by
          simp only [sizeLe_def] at hC
          simp only [lexLe_def]
          omega
        rw [if_pos hC, if_neg hD]
      · have hD : lexLe x y := by
          simp only [sizeLe_def] at hC
          simp only [lexLe_def]
          omega
        rw [if_neg hC, if_pos hD]
  | z :: zs => by
      by_cases hA : lexLe x z <;> by_cases hB : sizeLe y z
      · -- x before z and y before z
        rw [orderedInsert_cons_pos zs hA, orderedInsert_cons_pos zs hB]
        by_cases hC : sizeLe y x
        · have hD : ¬ lexLe x y := by
            simp only [sizeLe_def] at hC
            simp only [lexLe_def]
            omega
          rw [orderedInsert_cons_pos (z :: zs) hC, orderedInsert_cons_neg (z :: zs) hD,
            orderedInsert_cons_pos zs hA]
        · have hD : lexLe x y := by
            simp only [sizeLe_def] at hC
            simp only [lexLe_def]
            omega
          rw [orderedInsert_cons_neg (z :: zs) hC, orderedInsert_cons_pos zs hB,
            orderedInsert_cons_pos (z :: zs) hD]
      · -- x before z, y after z: y also comes after x
        have hC : ¬ sizeLe y x := by
          simp only [lexLe_def] at hA
          simp only [sizeLe_def] at hB ⊢
          omega
        rw [orderedInsert_cons_pos zs hA, orderedInsert_cons_neg zs hB,
          orderedInsert_cons_neg (z :: zs) hC, orderedInsert_cons_neg zs hB,
          orderedInsert_cons_pos (List.orderedInsert sizeLe y zs) hA]
      · -- x after z, y before z: x also comes after y
        have hC : sizeLe y x := by
          simp only [lexLe_def] at hA
          simp only [sizeLe_def] at hB ⊢
          omega
        have hD : ¬ lexLe x y := by
          simp only [sizeLe_def] at hC
          simp only [lexLe_def]
          omega
        rw [orderedInsert_cons_neg zs hA, orderedInsert_cons_pos zs hB,
          orderedInsert_cons_pos (List.orderedInsert lexLe x zs) hB,
          orderedInsert_cons_neg (z :: zs) hD, orderedInsert_cons_neg zs hA]
      · -- both go after z: recurse
        rw [orderedInsert_cons_neg zs hA, orderedInsert_cons_neg zs hB,
          orderedInsert_cons_neg (List.orderedInsert lexLe x zs) hB,
          orderedInsert_cons_neg (List.orderedInsert sizeLe y zs) hA,
          orderedInsert_comm_of_updated_lt hxy zs]

/-- Sorting by size after inserting x into a list sorted descending by
updated_at is inserting x by the combined order into the size-sorted list. -/
theorem insertionSort_sizeLe_orderedInsert_updGe (x : Repo) :
    ∀ m : List Repo, m.Sorted updGe →
      List.insertionSort sizeLe (List.orderedInsert updGe x m) =
        List.orderedInsert lexLe x (List.insertionSort sizeLe m)
  | [], _ => rfl
  | y :: ys, hp => by
      have hy : ∀ b ∈ ys, updGe y b := List.rel_of_sorted_cons hp
      have hys : (ys : List Repo).Sorted updGe := hp.of_cons
      by_cases hxy : updGe x y
      · have hall : ∀ z ∈ List.insertionSort sizeLe (y :: ys), z.updated_at ≤ x.updated_at := by
          intro z hz
          rw [List.mem_insertionSort] at hz
          rcases List.mem_cons.mp hz with rfl | hz'
          · exact hxy
          · exact le_trans (hy z hz') hxy
        rw [orderedInsert_cons_pos ys hxy]
        show List.orderedInsert sizeLe x (List.insertionSort sizeLe (y :: ys)) =
          List.orderedInsert lexLe x (List.insertionSort sizeLe (y :: ys))
        exact orderedInsert_sizeLe_eq_lexLe x _ hall
      · have hxy' : x.updated_at < y.updated_at := by
          simp only [updGe_def] at hxy
          omega
        rw [orderedInsert_cons_neg ys hxy]
        show List.orderedInsert sizeLe y
            (List.insertionSort sizeLe (List.orderedInsert updGe x ys)) =
          List.orderedInsert lexLe x (List.insertionSort sizeLe (y :: ys))
        rw [insertionSort_sizeLe_orderedInsert_updGe x ys hys,
          orderedInsert_comm_of_updated_lt hxy' (List.insertionSort sizeLe ys)]
        rfl

/-- The two successive stable sorts of get_repositories are one stable sort
by the combined order. -/
theorem insertionSort_sizeLe_updGe_eq_lexLe :
    ∀ l : List Repo,
      List.insertionSort sizeLe (List.insertionSort updGe l) = List.insertionSort lexLe l
  | [] => rfl
  | x :: t => by
      show List.insertionSort sizeLe
          (List.orderedInsert updGe x (List.insertionSort updGe t)) =
        List.insertionSort lexLe (x :: t)
      rw [insertionSort_sizeLe_orderedInsert_updGe x _ (List.sorted_insertionSort updGe t),
        insertionSort_sizeLe_updGe_eq_lexLe t]
      rfl

/-- Size-sorting a list that is sorted descending by updated_at yields a list
sorted by the combined order. -/
theorem sorted_lexLe_insertionSort_sizeLe :
    ∀ w : List Repo, w.Sorted updGe → (List.insertionSort sizeLe w).Sorted lexLe
  | [], _ => List.sorted_nil
  | x :: t, hp => by
      have hx : ∀ b ∈ t, updGe x b := List.rel_of_sorted_cons hp
      have ht : (t : List Repo).Sorted updGe := hp.of_cons
      have hall : ∀ z ∈ List.insertionSort sizeLe t, z.updated_at ≤ x.updated_at := by
        intro z hz
        rw [List.mem_insertionSort] at hz
        exact hx z hz
      show (List.orderedInsert sizeLe x (List.insertionSort sizeLe t)).Sorted lexLe
      rw [orderedInsert_sizeLe_eq_lexLe x _ hall]
      exact List.Sorted.orderedInsert x _ (sorted_lexLe_insertionSort_sizeLe t ht)

/-- Every record shape returns is a non-fork. -/
theorem shape_no_forks (rs : List Repo) (n : Int) : ∀ r ∈ shape rs n, r.fork = false := by
  intro r hr
  simp only [shape] at hr
  rw [List.mem_insertionSort] at hr
  have hr2 : r ∈ List.insertionSort updGe (rs.filter fun repo => !repo.fork) := by
    by_cases hn : 0 < n
    · rw [if_pos hn] at hr
      exact List.mem_of_mem_take hr
    · rwa [if_neg hn] at hr
  rw [List.mem_insertionSort] at hr2
  have := List.of_mem_filter hr2
  simpa using this

/-- With a positive max_count, shape returns at most max_count records. -/
theorem shape_length_le (rs : List Repo) (n : Int) (h : 0 < n) :
    (shape rs n).length ≤ n.toNat := by
  simp only [shape, if_pos h]
  rw [List.length_insertionSort, List.length_take]
  omega

/-- The output of shape is sorted by the combined order. -/
theorem shape_sorted (rs : List Repo) (n : Int) : (shape rs n).Sorted lexLe := by
  simp only [shape]
  apply sorted_lexLe_insertionSort_sizeLe
  by_cases hn : 0 < n
  · rw [if_pos hn]
    exact (List.sorted_insertionSort updGe _).sublist (List.take_sublist _ _)
  · rw [if_neg hn]
    exact List.sorted_insertionSort updGe _

/-- A fork-free list sorted by the combined order and short enough for the
truncation is a fixed point of shape. -/
theorem shape_fixpoint (o : List Repo) (n : Int)
    (hfork : ∀ r ∈ o, r.fork = false)
    (hsort : o.Sorted lexLe)
    (hlen : 0 < n → o.length ≤ n.toNat) :
    shape o n = o := by
  have hfilter : o.filter (fun repo => !repo.fork) = o :=
    List.filter_eq_self.mpr (fun r hr => by simp [hfork r hr])
  simp only [shape, hfilter]
  have htake : (if 0 < n then (List.insertionSort updGe o).take n.toNat
      else List.insertionSort updGe o) = List.insertionSort updGe o := by
    by_cases hn : 0 < n
    · rw [if_pos hn]
      apply List.take_of_length_le
      rw [List.length_insertionSort]
      exact hlen hn
    · rw [if_neg hn]
  rw [htake, insertionSort_sizeLe_updGe_eq_lexLe o, hsort.insertionSort_eq]

/-- C1: the shape operation of get_repositories is exactly the composition of
the four spec steps (drop forks, stable sort descending by updated_at,
truncate when max_count > 0, stable re-sort ascending by size), and on ten
non-fork records with max_count 3 it returns the three most recently updated
records ordered ascending by size. -/
theorem C1_shape_pipeline :
    (∀ (records : List Repo) (max_count : Int),
        shape records max_count =
          spec_sort_size_asc
            (spec_truncate max_count (spec_sort_updated_desc (spec_drop_forks records)))) ∧
    shape ten_repos 3 =
      [⟨"i", 9, 10, false⟩, ⟨"j", 10, 20, false⟩, ⟨"h", 8, 30, false⟩] :=
  ⟨fun _ _ => rfl, by decide⟩

/-- C2: a Backend constructed with use_cache = true ends with incremental =
false whatever incremental value was requested, so cache replay and
state-based incremental resumption are never both enabled. -/
theorem C2_cache_forces_non_incremental :
    ∀ incremental : Bool, (backend_init true incremental).incremental = false := by
  decide

/-- C3 counterexample: constructing with use_cache = false and incremental =
true attempts the state restore, self-transitions to the fresh state
(incremental ends false with no cache in use), yet the cache is never
cleaned: the claim that every construction ending fresh clears the
CacheLayer is false on the code. -/
theorem C3_fresh_entry_counterexample :
    (backend_init false true).use_cache = false ∧
    (backend_init false true).incremental = false ∧
    (backend_init false true).restore_attempted = true ∧
    (backend_init false true).cache_cleaned = false := by
  decide

/-- C3 amended: the CacheLayer is cleaned exactly when the construction
enters the fresh state directly, that is when use_cache and the requested
incremental are both false; a construction that requested incremental = true
with use_cache = false self-transitions to fresh after the restore attempt
but does not clean the cache. -/
theorem C3_cache_cleaned_iff_direct_fresh :
    ∀ use_cache incremental : Bool,
      (backend_init use_cache incremental).cache_cleaned = (!use_cache && !incremental) := by
  decide

/-- C4: with zero records _items_state_to_es returns immediately, issuing no
bulk write and leaving the sink unchanged; a bulk write is submitted exactly
when at least one record was produced. -/
theorem C4_empty_state_persist_noop :
    (∀ es : EsSink, items_state_to_es [] es = es) ∧
    (∀ (json_items : List EsItem) (es : EsSink),
        (items_state_to_es json_items es).requests.length =
          es.requests.length + (if json_items.length = 0 then 0 else 1)) := by
  constructor
  · intro es
    rfl
  · intro items es
    by_cases h : items.length = 0 <;> simp [items_state_to_es, h]

/-- C5: on the rate-limit signal (HTTP 403, the remote's remaining = 0) the
wait with reset_at = now + 5 is between 5 and 6 seconds; any other status
returns immediately with no sleep; and whenever the reset lies within the
window the code wakes exactly at reset_at + 1 second. -/
theorem C5_rate_limit_backoff :
    (∀ now : Int,
        5 ≤ rate_limit_wait 403 (now + 5) now ∧ rate_limit_wait 403 (now + 5) now ≤ 6) ∧
    (∀ (status : Nat) (reset_at now : Int),
        status ≠ 403 → rate_limit_wait status reset_at now = 0) ∧
    (∀ reset_at now : Int, 0 ≤ reset_at - now → reset_at - now < 86400 →
        now + rate_limit_wait 403 reset_at now = reset_at + 1) := by
  refine ⟨?_, ?_, ?_⟩
  · intro now
    have h : rate_limit_wait 403 (now + 5) now = (now + 5 - now) % 86400 + 1 := by
      simp [rate_limit_wait]
    rw [h]
    omega
  · intro status reset_at now h
    simp [rate_limit_wait, h]
  · intro reset_at now h1 h2
    have h : rate_limit_wait 403 reset_at now = (reset_at - now) % 86400 + 1 := by
      simp [rate_limit_wait]
    rw [h]
    omega

/-- C5 witness: a non-403 status sleeps 0 seconds, and with reset 5 seconds
ahead of time 0 the code wakes at second 6 = reset + 1. -/
theorem C5_rate_limit_backoff_witness :
    rate_limit_wait 404 100 0 = 0 ∧ 0 + rate_limit_wait 403 5 0 = 5 + 1 :=
  ⟨C5_rate_limit_backoff.2.1 404 100 0 (by decide),
   C5_rate_limit_backoff.2.2 5 0 (by decide) (by decide)⟩

/-- C6: a ConnectionError halts the pagination loop, is logged, and the items
of the pages fetched before it are kept; without an error the loop stops
exactly at the first response with no next link, with all pages concatenated
in response order; and get_repositories feeds whatever the loop gathered
through the shape steps. -/
theorem C6_pagination_partial_results :
    (∀ (pre rest : List PageResponse) (acc : List Repo),
        all_pages_with_next pre →
        paginate_loop (pre ++ PageResponse.connectionError :: rest) acc =
          Except.ok ⟨acc ++ items_of pre, true⟩) ∧
    (∀ (pre rest : List PageResponse) (last_items acc : List Repo),
        all_pages_with_next pre →
        paginate_loop (pre ++ PageResponse.page last_items none :: rest) acc =
          Except.ok ⟨acc ++ items_of pre ++ last_items, false⟩) ∧
    (∀ (trace : List PageResponse) (nrepos : Int),
        get_repositories trace nrepos =
          (paginate_loop trace []).map (fun o => shape o.all_repos nrepos)) := by
  refine ⟨?_, ?_, ?_⟩
  · intro pre rest
    induction pre with
    | nil => intro acc _; simp [paginate_loop, items_of]
    | cons p pre ih =>
        intro acc h
        obtain ⟨items, url, rfl⟩ := h p (List.mem_cons_self p pre)
        have h' : all_pages_with_next pre := fun q hq => h q (List.mem_cons_of_mem _ hq)
        simp only [List.cons_append, paginate_loop, items_of, List.append_eq]
        rw [ih (acc ++ items) h']
        simp [List.append_assoc]
  · intro pre rest last_items
    induction pre with
    | nil => intro acc _; simp [paginate_loop, items_of]
    | cons p pre ih =>
        intro acc h
        obtain ⟨items, url, rfl⟩ := h p (List.mem_cons_self p pre)
        have h' : all_pages_with_next pre := fun q hq => h q (List.mem_cons_of_mem _ hq)
        simp only [List.cons_append, paginate_loop, items_of, List.append_eq]
        rw [ih (acc ++ items) h']
        simp [List.append_assoc]
  · intro trace nrepos
    rfl

/-- C6 witness: one full page followed by a ConnectionError yields the page's
item, with the error logged. -/
theorem C6_pagination_partial_results_witness :
    paginate_loop
        ([PageResponse.page [wrepo] (some "u")] ++ PageResponse.connectionError :: []) [] =
      Except.ok ⟨[] ++ items_of [PageResponse.page [wrepo] (some "u")], true⟩ :=
  C6_pagination_partial_results.1 [PageResponse.page [wrepo] (some "u")] [] []
    (by
      intro p hp
      simp only [List.mem_singleton] at hp
      exact ⟨[wrepo], "u", hp⟩)

/-- C7: the org endpoint is kept whenever the probe succeeds; a probe
HTTPError other than 403 switches to the user endpoint; and an HTTPError on
the following fetch propagates, so the user endpoint is tried exactly once
before giving up. -/
theorem C7_org_user_fallback :
    (∀ owner : String, get_owner_repos_url owner ProbeOutcome.success = url_org owner) ∧
    (∀ (owner : String) (status : Nat), status ≠ 403 →
        get_owner_repos_url owner (ProbeOutcome.httpError status) = url_user owner) ∧
    (∀ (status : Nat) (rest : List PageResponse) (nrepos : Int),
        get_repositories (PageResponse.httpError status :: rest) nrepos =
          Except.error status) := by
  refine ⟨fun _ => rfl, ?_, ?_⟩
  · intro owner status h
    simp [get_owner_repos_url, h]
  · intro status rest nrepos
    rfl

/-- C7 witness: a 404 on the org probe resolves to the user endpoint. -/
theorem C7_org_user_fallback_witness :
    get_owner_repos_url "grimoirelab" (ProbeOutcome.httpError 404) = url_user "grimoirelab" :=
  C7_org_user_fallback.2.1 "grimoirelab" 404 (by decide)

/-- C8: whenever the selected filter value (origin, or tag for the tagged
sources) is the empty string, get_repository_filter returns the empty
match-all filter, for every source name and for both filter forms. -/
theorem C8_empty_value_match_all :
    ∀ (b : PercevalBackend) (backend_name : String) (term : Bool),
      selected_filter_value b backend_name = "" →
      get_repository_filter (some b) backend_name term = RepositoryFilter.matchAll := by
  intro b backend_name term h
  simp only [selected_filter_value] at h
  simp only [get_repository_filter]
  by_cases htag : backend_name ∈ ["meetup", "nntp", "stackexchange", "jira"]
  · rw [if_pos htag] at h
    simp [htag, h]
  · rw [if_neg htag] at h
    simp [htag, h]

/-- C8 witness: an empty origin on a non-tagged source in the term form
collapses to the match-all filter. -/
theorem C8_empty_value_match_all_witness :
    selected_filter_value ⟨"", "t"⟩ "git" = "" ∧
    get_repository_filter (some ⟨"", "t"⟩) "git" true = RepositoryFilter.matchAll :=
  ⟨by decide, C8_empty_value_match_all ⟨"", "t"⟩ "git" true (by decide)⟩

/-- C9: shape is idempotent on its own output: shaping the shaped list again
with the same max_count returns it unchanged, element for element. -/
theorem C9_shape_idempotent (records : List Repo) (max_count : Int) :
    shape (shape records max_count) max_count = shape records max_count :=
  shape_fixpoint (shape records max_count) max_count
    (shape_no_forks records max_count)
    (shape_sorted records max_count)
    (fun h => shape_length_le records max_count h)

/-- C10: for every combination of constructor flags, Backend.__init__ leaves
incremental = false: the restore placeholder disables incremental mode
unconditionally, so no constructed Backend stays incremental. -/
theorem C10_incremental_always_false :
    ∀ use_cache incremental : Bool,
      (backend_init use_cache incremental).incremental = false := by
  decide

end GrimoireELK
